import Mathlib

/-!
Verification development for the Kumu portable file-I/O layer
(`KM_fileio.cpp`): path component algebra, glob matching, recursive
deletion and search, and the single/vectored file-write operations.

Paths are modelled as `List Char` (the C++ `std::string`), results as an
inductive `Result` mirroring the `Kumu::RESULT_*` codes used by the file,
and OS behaviour (write counts, `errno` values, directory contents) as
explicit parameters.
-/

namespace Kumu

abbrev PathComp := List Char
abbrev PathCompList := List PathComp

/-- The component `"."`. -/
def dot : PathComp := ['.']

/-- The component `".."`. -/
def dotdot : PathComp := ['.', '.']

/-- Modelled from the spec: `km_token_split` lives in `KM_util.cpp`, which is
not among the sources; the spec describes the composite
`split(path, sep)` as "splits on `sep`, discards empty segments", the
discarding being done by `PathToComponents` itself.  This function is the
underlying tokenizer: it splits on the separator keeping empty segments. -/
def km_token_split (sep : Char) : List Char → PathCompList
  | [] => [[]]
  | c :: cs =>
    if c = sep then [] :: km_token_split sep cs
    else
      match km_token_split sep cs with
      | [] => [[c]]
      | t :: ts => (c :: t) :: ts

/-- `Kumu::PathToComponents`: tokenize on the separator and keep only the
non-empty segments. -/
def PathToComponents (sep : Char) (path : List Char) : PathCompList :=
  (km_token_split sep path).filter (fun t => !t.isEmpty)

/-- `Kumu::ComponentsToPath`: empty list yields the empty string, otherwise
the first component followed by `separator + component` for each of the
rest. -/
def ComponentsToPath (sep : Char) : PathCompList → List Char
  | [] => []
  | c :: rest => c ++ rest.flatMap (fun x => sep :: x)

/-- `Kumu::ComponentsToAbsolutePath`: empty list yields just the separator,
otherwise `separator + component` for every component. -/
def ComponentsToAbsolutePath (sep : Char) (cl : PathCompList) : List Char :=
  if cl = [] then [sep] else cl.flatMap (fun x => sep :: x)

/-- `Kumu::PathIsAbsolute`: empty string is not absolute; otherwise true
iff the first character is the separator. -/
def PathIsAbsolute (sep : Char) (path : List Char) : Bool :=
  match path with
  | [] => false
  | c :: _ => c = sep

/-- One step of `make_canonical_list`'s loop: `".."` pops the output stack
when non-empty (`pop_back` guarded by `empty()`), `"."` is dropped, and
anything else is pushed. -/
def make_canonical_step (out : PathCompList) (c : PathComp) : PathCompList :=
  if c = dotdot then out.dropLast
  else if c = dot then out
  else out ++ [c]

/-- `make_canonical_list` (static helper in `KM_fileio.cpp`): left-to-right
fold of the canonicalization step starting from an empty output list. -/
def make_canonical_list (in_list : PathCompList) : PathCompList :=
  in_list.foldl make_canonical_step []

/-- `Kumu::PathMakeCanonical`: split, canonicalize the component list, and
re-join absolutely or relatively according to the input's absoluteness. -/
def PathMakeCanonical (sep : Char) (path : List Char) : List Char :=
  if PathIsAbsolute sep path then
    ComponentsToAbsolutePath sep (make_canonical_list (PathToComponents sep path))
  else
    ComponentsToPath sep (make_canonical_list (PathToComponents sep path))

/-- `Kumu::PathJoin` (two-argument form). -/
def PathJoin (sep : Char) (p1 p2 : List Char) : List Char :=
  p1 ++ sep :: p2

/-- `Kumu::PathMakeAbsolute`: the empty path becomes the lone separator;
an absolute path is just canonicalized; a relative path is joined onto the
current working directory (an explicit parameter here, `PathCwd()` in the
source) and canonicalized absolutely. -/
def PathMakeAbsolute (sep : Char) (cwd path : List Char) : List Char :=
  if path = [] then [sep]
  else if PathIsAbsolute sep path then PathMakeCanonical sep path
  else
    ComponentsToAbsolutePath sep
      (make_canonical_list (PathToComponents sep (PathJoin sep cwd path)))

/-- `std::list::back` on the component list, with the empty list mapped to
the empty string (the `CList.empty()` early return in the callers). -/
def list_back : PathCompList → PathComp
  | [] => []
  | [c] => c
  | _ :: c :: rest => list_back (c :: rest)

/-- `Kumu::PathBasename`: the last component, or the empty string when the
component list is empty. -/
def PathBasename (sep : Char) (path : List Char) : List Char :=
  list_back (PathToComponents sep path)

/-- Index of the last occurrence of `c` (the `strrchr` offset), if any. -/
def strrchr_idx (c : Char) : List Char → Option Nat
  | [] => none
  | a :: rest =>
    match strrchr_idx c rest with
    | some i => some (i + 1)
    | none => if a = c then some 0 else none

/-- `Kumu::PathSetExtension`: take the basename, truncate it at the last
`'.'` when one exists, and append `"." + Extension` unless the extension is
empty (an empty extension removes the old one). -/
def PathSetExtension (sep : Char) (path ext : List Char) : List Char :=
  let basename := PathBasename sep path
  let b :=
    match strrchr_idx '.' basename with
    | none => basename
    | some i => basename.take i
  if ext = [] then b else b ++ '.' :: ext

/-! ### Basic facts about the tokenizer -/

theorem km_token_split_ne_nil (sep : Char) (s : List Char) :
    km_token_split sep s ≠ [] := by
  cases s with
  | nil => simp [km_token_split]
  | cons c cs =>
    simp only [km_token_split]
    split
    · simp
    · split <;> simp

theorem km_token_split_sep_cons (sep : Char) (r : List Char) :
    km_token_split sep (sep :: r) = [] :: km_token_split sep r := by
  simp [km_token_split]

theorem km_token_split_append_clean (sep : Char) (c r : List Char)
    (hsep : sep ∉ c) {t : PathComp} {ts : PathCompList}
    (hr : km_token_split sep r = t :: ts) :
    km_token_split sep (c ++ r) = (c ++ t) :: ts := by
  induction c with
  | nil => simpa using hr
  | cons a c ih =>
    have ha : a ≠ sep := by
      intro h; exact hsep (h ▸ List.mem_cons_self a c)
    have hc : sep ∉ c := fun h => hsep (List.mem_cons_of_mem a h)
    have ih2 := ih hc
    simp only [List.cons_append, km_token_split, if_neg ha, List.append_eq, ih2]

theorem mem_km_token_split_not_sep (sep : Char) (s : List Char) :
    ∀ t ∈ km_token_split sep s, sep ∉ t := by
  induction s with
  | nil =>
    intro t ht
    simp [km_token_split] at ht
    simp [ht]
  | cons c cs ih =>
    intro t ht
    simp only [km_token_split] at ht
    by_cases hcs : c = sep
    · rw [if_pos hcs] at ht
      rcases List.mem_cons.mp ht with h | h
      · simp [h]
      · exact ih t h
    · rw [if_neg hcs] at ht
      rcases h0 : km_token_split sep cs with _ | ⟨t0, ts0⟩
      · exact absurd h0 (km_token_split_ne_nil sep cs)
      · rw [h0] at ht
        rcases List.mem_cons.mp ht with h | h
        · subst h
          intro hmem
          rcases List.mem_cons.mp hmem with h | h
          · exact hcs h.symm
          · exact ih t0 (h0 ▸ List.mem_cons_self t0 ts0) h
        · exact ih t (h0 ▸ List.mem_cons_of_mem t0 h)

theorem mem_PathToComponents (sep : Char) (s : List Char) :
    ∀ t ∈ PathToComponents sep s, t ≠ [] ∧ sep ∉ t := by
  intro t ht
  have h := List.mem_filter.mp ht
  refine ⟨?_, mem_km_token_split_not_sep sep s t h.1⟩
  have := h.2
  simpa [List.isEmpty_iff] using this

/-! ### Split/join round trips -/

/-- Splitting the "absolute join" body `sep·c₁ sep·c₂ …` of a clean
component list yields a leading empty token followed by tokens that filter
back to the list itself. -/
theorem km_token_split_flatMap (sep : Char) (cl : PathCompList)
    (h : ∀ t ∈ cl, t ≠ [] ∧ sep ∉ t) :
    ∃ ts, km_token_split sep (cl.flatMap (fun x => sep :: x)) = [] :: ts ∧
      ts.filter (fun t => !t.isEmpty) = cl := by
  induction cl with
  | nil => exact ⟨[], by simp [km_token_split], rfl⟩
  | cons x xs ih =>
    obtain ⟨ts, h1, h2⟩ := ih (fun t ht => h t (List.mem_cons_of_mem x ht))
    have hx := h x (List.mem_cons_self x xs)
    refine ⟨x :: ts, ?_, ?_⟩
    · have hsplit := km_token_split_append_clean sep x _ hx.2 h1
      rw [List.flatMap_cons, List.cons_append, km_token_split_sep_cons]
      rw [hsplit]
      simp
    · have : (!x.isEmpty) = true := by
        simp [List.isEmpty_iff, hx.1]
      simp [List.filter_cons, this, h2]

/-- `PathToComponents` is a left inverse of `ComponentsToPath` on lists of
non-empty, separator-free components. -/
theorem PathToComponents_ComponentsToPath (sep : Char) (cl : PathCompList)
    (h : ∀ t ∈ cl, t ≠ [] ∧ sep ∉ t) :
    PathToComponents sep (ComponentsToPath sep cl) = cl := by
  cases cl with
  | nil => simp [ComponentsToPath, PathToComponents, km_token_split]
  | cons c rest =>
    obtain ⟨ts, h1, h2⟩ :=
      km_token_split_flatMap sep rest (fun t ht => h t (List.mem_cons_of_mem c ht))
    have hc := h c (List.mem_cons_self c rest)
    have hsplit := km_token_split_append_clean sep c _ hc.2 h1
    have hne : (!c.isEmpty) = true := by simp [List.isEmpty_iff, hc.1]
    simp only [ComponentsToPath, PathToComponents]
    rw [show c ++ [] = c from List.append_nil c] at hsplit
    rw [hsplit, List.filter_cons, hne, h2]
    simp

/-- `PathToComponents` is a left inverse of `ComponentsToAbsolutePath` on
lists of non-empty, separator-free components. -/
theorem PathToComponents_ComponentsToAbsolutePath (sep : Char) (cl : PathCompList)
    (h : ∀ t ∈ cl, t ≠ [] ∧ sep ∉ t) :
    PathToComponents sep (ComponentsToAbsolutePath sep cl) = cl := by
  by_cases hcl : cl = []
  · subst hcl
    simp [ComponentsToAbsolutePath, PathToComponents, km_token_split]
  · obtain ⟨ts, h1, h2⟩ := km_token_split_flatMap sep cl h
    simp only [ComponentsToAbsolutePath, if_neg hcl, PathToComponents]
    rw [h1, List.filter_cons]
    simp [h2]

/-! ### The canonicalization pass -/

theorem mem_foldl_make_canonical_step (in_list : PathCompList) :
    ∀ acc, ∀ t ∈ List.foldl make_canonical_step acc in_list,
      t ∈ acc ∨ t ∈ in_list := by
  induction in_list with
  | nil => intro acc t ht; exact Or.inl ht
  | cons c cs ih =>
    intro acc t ht
    rcases ih (make_canonical_step acc c) t ht with h | h
    · unfold make_canonical_step at h
      by_cases h1 : c = dotdot
      · rw [if_pos h1] at h
        exact Or.inl (List.dropLast_subset acc h)
      · rw [if_neg h1] at h
        by_cases h2 : c = dot
        · rw [if_pos h2] at h
          exact Or.inl h
        · rw [if_neg h2] at h
          rcases List.mem_append.mp h with h | h
          · exact Or.inl h
          · exact Or.inr (by simp [List.mem_singleton.mp h])
    · exact Or.inr (List.mem_cons_of_mem c h)

theorem mem_make_canonical_list (in_list : PathCompList) :
    ∀ t ∈ make_canonical_list in_list, t ∈ in_list := by
  intro t ht
  rcases mem_foldl_make_canonical_step in_list [] t ht with h | h
  · simp at h
  · exact h

/-- No `"."` or `".."` component survives canonicalization. -/
theorem make_canonical_list_no_dots (in_list : PathCompList) :
    ∀ t ∈ make_canonical_list in_list, t ≠ dot ∧ t ≠ dotdot := by
  suffices h : ∀ acc, (∀ t ∈ acc, t ≠ dot ∧ t ≠ dotdot) →
      ∀ t ∈ List.foldl make_canonical_step acc in_list, t ≠ dot ∧ t ≠ dotdot by
    exact h [] (by intro t ht; simp at ht)
  induction in_list with
  | nil => intro acc hacc t ht; exact hacc t ht
  | cons c cs ih =>
    intro acc hacc t ht
    refine ih (make_canonical_step acc c) ?_ t ht
    intro u hu
    unfold make_canonical_step at hu
    by_cases h1 : c = dotdot
    · rw [if_pos h1] at hu
      exact hacc u (List.dropLast_subset acc hu)
    · rw [if_neg h1] at hu
      by_cases h2 : c = dot
      · rw [if_pos h2] at hu
        exact hacc u hu
      · rw [if_neg h2] at hu
        rcases List.mem_append.mp hu with h | h
        · exact hacc u h
        · rw [List.mem_singleton.mp h]
          exact ⟨h2, h1⟩

/-- Canonicalizing a list that already contains no `"."` or `".."` is the
identity (each component is simply pushed). -/
theorem make_canonical_list_id (in_list : PathCompList)
    (h : ∀ t ∈ in_list, t ≠ dot ∧ t ≠ dotdot) :
    make_canonical_list in_list = in_list := by
  suffices hg : ∀ acc, List.foldl make_canonical_step acc in_list = acc ++ in_list by
    simpa using hg []
  induction in_list with
  | nil => intro acc; simp
  | cons c cs ih =>
    intro acc
    have hc := h c (List.mem_cons_self c cs)
    have hstep : make_canonical_step acc c = acc ++ [c] := by
      unfold make_canonical_step
      rw [if_neg hc.2, if_neg hc.1]
    rw [List.foldl_cons, hstep,
      ih (fun t ht => h t (List.mem_cons_of_mem c ht)) (acc ++ [c])]
    simp

/-- An all-`".."` input canonicalizes to the empty component list: each
`".."` pops an already-empty stack. -/
theorem make_canonical_list_all_dotdot (in_list : PathCompList)
    (h : ∀ t ∈ in_list, t = dotdot) :
    make_canonical_list in_list = [] := by
  unfold make_canonical_list
  induction in_list with
  | nil => rfl
  | cons c cs ih =>
    have hc := h c (List.mem_cons_self c cs)
    have hstep : make_canonical_step [] c = [] := by
      unfold make_canonical_step
      rw [if_pos hc]
      rfl
    rw [List.foldl_cons, hstep, ih (fun t ht => h t (List.mem_cons_of_mem c ht))]

theorem PathIsAbsolute_ComponentsToAbsolutePath (sep : Char) (cl : PathCompList) :
    PathIsAbsolute sep (ComponentsToAbsolutePath sep cl) = true := by
  unfold ComponentsToAbsolutePath
  by_cases hcl : cl = []
  · simp [hcl, PathIsAbsolute]
  · rw [if_neg hcl]
    cases cl with
    | nil => exact absurd rfl hcl
    | cons x xs => simp [PathIsAbsolute]

theorem PathIsAbsolute_ComponentsToPath (sep : Char) (cl : PathCompList)
    (h : ∀ t ∈ cl, t ≠ [] ∧ sep ∉ t) :
    PathIsAbsolute sep (ComponentsToPath sep cl) = false := by
  cases cl with
  | nil => rfl
  | cons c rest =>
    have hc := h c (List.mem_cons_self c rest)
    cases c with
    | nil => exact absurd rfl hc.1
    | cons a c0 =>
      have ha : a ≠ sep := by
        intro hEq
        exact hc.2 (hEq ▸ List.mem_cons_self a c0)
      simp [ComponentsToPath, PathIsAbsolute, ha]

/-- The canonical output components are non-empty, separator-free, and free
of `"."`/`".."`. -/
theorem canonical_components_clean (sep : Char) (p : List Char) :
    ∀ t ∈ make_canonical_list (PathToComponents sep p),
      t ≠ [] ∧ sep ∉ t ∧ t ≠ dot ∧ t ≠ dotdot := by
  intro t ht
  have h1 := mem_PathToComponents sep p t (mem_make_canonical_list _ t ht)
  have h2 := make_canonical_list_no_dots (PathToComponents sep p) t ht
  exact ⟨h1.1, h1.2, h2.1, h2.2⟩

/-! ### C5: idempotence of canonicalization -/

/-- C5. For every path string `p` and separator, `PathMakeCanonical` is
idempotent: `PathMakeCanonical(PathMakeCanonical(p))` equals
`PathMakeCanonical(p)`. -/
theorem PathMakeCanonical_idempotent (sep : Char) (p : List Char) :
    PathMakeCanonical sep (PathMakeCanonical sep p) = PathMakeCanonical sep p := by
  have hclean := canonical_components_clean sep p
  have hcl : ∀ t ∈ make_canonical_list (PathToComponents sep p), t ≠ [] ∧ sep ∉ t :=
    fun t ht => ⟨(hclean t ht).1, (hclean t ht).2.1⟩
  have hnd : ∀ t ∈ make_canonical_list (PathToComponents sep p), t ≠ dot ∧ t ≠ dotdot :=
    fun t ht => ⟨(hclean t ht).2.2.1, (hclean t ht).2.2.2⟩
  by_cases habs : PathIsAbsolute sep p = true
  · have hq : PathMakeCanonical sep p
        = ComponentsToAbsolutePath sep (make_canonical_list (PathToComponents sep p)) := by
      unfold PathMakeCanonical
      rw [if_pos habs]
    rw [hq]
    unfold PathMakeCanonical
    rw [if_pos (PathIsAbsolute_ComponentsToAbsolutePath sep _),
      PathToComponents_ComponentsToAbsolutePath sep _ hcl,
      make_canonical_list_id _ hnd]
  · have hq : PathMakeCanonical sep p
        = ComponentsToPath sep (make_canonical_list (PathToComponents sep p)) := by
      unfold PathMakeCanonical
      rw [if_neg habs]
    rw [hq]
    unfold PathMakeCanonical
    have hrel : ¬ PathIsAbsolute sep
        (ComponentsToPath sep (make_canonical_list (PathToComponents sep p))) = true := by
      rw [PathIsAbsolute_ComponentsToPath sep _ hcl]
      simp
    rw [if_neg hrel,
      PathToComponents_ComponentsToPath sep _ hcl,
      make_canonical_list_id _ hnd]

/-! ### C6: `..` pops, never escapes root -/

/-- C6. A `..` component pops the previous output component when one exists
and is otherwise dropped silently, so `..` never escapes above root:
`PathMakeCanonical("/a/../../b") = "/b"`, and a relative path whose
components are all `..` canonicalizes to the empty path, not an error. -/
theorem PathMakeCanonical_dotdot (sep : Char) (p : List Char)
    (habs : PathIsAbsolute sep p = false)
    (hall : ∀ t ∈ PathToComponents sep p, t = dotdot) :
    PathMakeCanonical '/' "/a/../../b".toList = "/b".toList ∧
      PathMakeCanonical sep p = [] := by
  constructor
  · decide
  · unfold PathMakeCanonical
    rw [habs]
    rw [make_canonical_list_all_dotdot _ hall]
    simp [ComponentsToPath]

/-- Witness for C6 at `p = "../.."`, separator `'/'`. -/
theorem PathMakeCanonical_dotdot_witness :
    PathMakeCanonical '/' "/a/../../b".toList = "/b".toList ∧
      PathMakeCanonical '/' "../..".toList = [] :=
  PathMakeCanonical_dotdot '/' "../..".toList (by decide) (by decide)

/-! ### C7: split/join round trip -/

/-- C7. For every non-empty sequence `C` of non-empty components containing
no separator character, splitting the joined relative path recovers `C`:
`PathToComponents(ComponentsToPath(C, sep), sep) = C`. -/
theorem PathToComponents_roundtrip (sep : Char) (cl : PathCompList)
    (hne : cl ≠ [])
    (h : ∀ t ∈ cl, t ≠ [] ∧ sep ∉ t) :
    PathToComponents sep (ComponentsToPath sep cl) = cl := by
  have _ := hne
  exact PathToComponents_ComponentsToPath sep cl h

/-- Witness for C7 at `C = ["a", "bc"]`, separator `'/'`. -/
theorem PathToComponents_roundtrip_witness :
    PathToComponents '/' (ComponentsToPath '/' [['a'], ['b', 'c']]) = [['a'], ['b', 'c']] :=
  PathToComponents_roundtrip '/' [['a'], ['b', 'c']] (by decide) (by decide)

/-! ### C10: `PathSetExtension` keeps only the final component -/

theorem list_back_mem (x : PathComp) (xs : PathCompList) :
    list_back (x :: xs) ∈ x :: xs := by
  induction xs generalizing x with
  | nil => simp [list_back]
  | cons y ys ih =>
    have h := ih y
    unfold list_back
    exact List.mem_cons_of_mem x h

/-- A single non-empty, separator-free token splits to itself alone. -/
theorem PathToComponents_single (sep : Char) (t : List Char)
    (hne : t ≠ []) (hsep : sep ∉ t) :
    PathToComponents sep t = [t] := by
  have h0 : km_token_split sep ([] : List Char) = [] :: [] := by
    simp [km_token_split]
  have h := km_token_split_append_clean sep t [] hsep h0
  rw [List.append_nil] at h
  unfold PathToComponents
  rw [h, List.filter_cons]
  have : (!t.isEmpty) = true := by simp [List.isEmpty_iff, hne]
  simp [this, List.append_nil]

/-- The basename of a basename is itself. -/
theorem PathBasename_idem (sep : Char) (p : List Char) :
    PathBasename sep (PathBasename sep p) = PathBasename sep p := by
  rcases h : PathToComponents sep p with _ | ⟨x, xs⟩
  · have hb : PathBasename sep p = [] := by
      rw [PathBasename, h]
      rfl
    rw [hb]
    have h2 : PathToComponents sep ([] : List Char) = [] := by
      simp [PathToComponents, km_token_split]
    rw [PathBasename, h2]
    rfl
  · have hb : PathBasename sep p = list_back (x :: xs) := by
      rw [PathBasename, h]
    have hmem : list_back (x :: xs) ∈ PathToComponents sep p :=
      h ▸ list_back_mem x xs
    have hc := mem_PathToComponents sep p _ hmem
    rw [hb]
    unfold PathBasename
    rw [PathToComponents_single sep _ hc.1 hc.2]
    rfl

/-- C10. For every path with more than one component, `PathSetExtension`
returns only the final component with its extension replaced — the
directory portion of the input is discarded (the result is exactly
`PathSetExtension` applied to the basename, and the basename is the final
component). -/
theorem PathSetExtension_discards_dirname (sep : Char) (p ext : List Char)
    (hlen : 1 < (PathToComponents sep p).length) :
    PathSetExtension sep p ext = PathSetExtension sep (PathBasename sep p) ext ∧
      PathBasename sep p = list_back (PathToComponents sep p) := by
  have _ := hlen
  refine ⟨?_, rfl⟩
  unfold PathSetExtension
  rw [PathBasename_idem sep p]

/-- Witness for C10 at `p = "/a/b.c"`, `ext = "txt"`, separator `'/'`. -/
theorem PathSetExtension_discards_dirname_witness :
    PathSetExtension '/' "/a/b.c".toList "txt".toList
        = PathSetExtension '/' (PathBasename '/' "/a/b.c".toList) "txt".toList ∧
      PathBasename '/' "/a/b.c".toList = list_back (PathToComponents '/' "/a/b.c".toList) :=
  PathSetExtension_discards_dirname '/' "/a/b.c".toList "txt".toList (by decide)

/-! ### Result codes and the file writer -/

/-- The `Kumu::RESULT_*` codes used by `KM_fileio.cpp`.  All of them except
`ok` are negative (failure) values; in particular `endoffile` stops read
and directory loops. -/
inductive Result where
  | ok
  | fileopen
  | badseek
  | readfail
  | writefail
  | state
  | null_str
  | notafile
  | no_perm
  | fail
  | param
  | endoffile
  | dir_create
  | not_empty
  | alloc
  deriving DecidableEq

/-- `KM_SUCCESS`: among the codes produced in this file, only `RESULT_OK`
is a success value. -/
def KM_SUCCESS : Result → Bool
  | Result.ok => true
  | _ => false

/-- `Kumu::FileWriter::Writev` (POSIX branch): with an invalid handle it
returns `RESULT_STATE` untouched; otherwise one `writev` call is issued
(`os_writev`: `none` models a `-1` return, `some n` a byte count) and the
call fails with `RESULT_WRITEFAIL` when the count differs from the total of
the queued lengths.  `iov->m_Count = 0` is executed only on the success
path.  Result: (code, pending list afterwards, `*bytes_written`). -/
def FileWriter.Writev_posix (handleValid : Bool) (pending : List Nat)
    (os_writev : Option Nat) : Result × List Nat × Option Nat :=
  if handleValid = false then (Result.state, pending, none)
  else
    match os_writev with
    | none => (Result.writefail, pending, none)
    | some write_size =>
      if write_size ≠ pending.sum then (Result.writefail, pending, none)
      else (Result.ok, [], some write_size)

/-- The per-buffer `WriteFile` loop of the WIN32 `Writev`: `os_write i` is
the outcome for queued buffer `i` (`none` = API failure, `some c` = count
`c`); the loop aborts on the first failed or short write, accumulating the
bytes written so far. -/
def FileWriter.writev_win32_loop (os_write : Nat → Option Nat) :
    List Nat → Nat → Nat → Result × Nat
  | [], _, acc => (Result.ok, acc)
  | len :: rest, i, acc =>
    match os_write i with
    | none => (Result.writefail, acc)
    | some cnt =>
      if cnt ≠ len then (Result.writefail, acc)
      else FileWriter.writev_win32_loop os_write rest (i + 1) (acc + cnt)

/-- `Kumu::FileWriter::Writev` (KM_WIN32 branch): invalid handle returns
`RESULT_STATE` with the queue untouched; otherwise the buffers are written
one by one and `iov->m_Count = 0` runs unconditionally after the loop
("error nor not, all is lost"). -/
def FileWriter.Writev_win32 (handleValid : Bool) (pending : List Nat)
    (os_write : Nat → Option Nat) : Result × List Nat × Option Nat :=
  if handleValid = false then (Result.state, pending, none)
  else
    ((FileWriter.writev_win32_loop os_write pending 0 0).1, [],
      some (FileWriter.writev_win32_loop os_write pending 0 0).2)

/-- `Kumu::FileWriter::Write` (POSIX branch): `os_write` is the `write(2)`
outcome (`none` = `-1`); any count different from `buf_len` yields
`RESULT_WRITEFAIL`, and `*bytes_written` is stored only on success. -/
def FileWriter.Write_posix (handleValid : Bool) (buf_len : Nat)
    (os_write : Option Nat) : Result × Option Nat :=
  if handleValid = false then (Result.state, none)
  else
    match os_write with
    | none => (Result.writefail, none)
    | some write_size =>
      if write_size ≠ buf_len then (Result.writefail, none)
      else (Result.ok, some write_size)

/-- `Kumu::FileWriter::Write` (KM_WIN32 branch): `WriteFile` reports a
boolean API outcome and a byte count (stored through `bytes_written`
unconditionally); a false outcome or a count different from `buf_len`
yields `RESULT_WRITEFAIL`. -/
def FileWriter.Write_win32 (handleValid : Bool) (buf_len : Nat)
    (os_api_ok : Bool) (os_count : Nat) : Result × Option Nat :=
  if handleValid = false then (Result.state, none)
  else if os_api_ok = false ∨ os_count ≠ buf_len then (Result.writefail, some os_count)
  else (Result.ok, some os_count)

/-! ### C1: pending write list after `Writev` -/

/-- C1 counterexample.  A POSIX `Writev` on a writer with two queued
buffers whose `writev` call fails returns `WriteFail` with the pending
write list still holding both entries — its count is 2, not 0 as the claim
requires for every failure. -/
theorem FileWriter.Writev_pending_counterexample :
    (FileWriter.Writev_posix true [5, 3] none).1 = Result.writefail ∧
      (FileWriter.Writev_posix true [5, 3] none).2.1 = [5, 3] ∧
      (FileWriter.Writev_posix true [5, 3] none).2.1.length = 2 := by
  decide

/-- C1 (amended).  After a `Writev` that returns success the pending write
list is empty; the WIN32 implementation clears it after any attempt with a
valid handle, success or failure; but a failing POSIX `Writev` (invalid
handle or failed/short `writev`) leaves the pending write list exactly as
it was. -/
theorem FileWriter.Writev_pending_amended (valid : Bool) (pending : List Nat)
    (os_writev : Option Nat) (os_write : Nat → Option Nat) :
    ((FileWriter.Writev_posix valid pending os_writev).1 = Result.ok →
      (FileWriter.Writev_posix valid pending os_writev).2.1 = []) ∧
    ((FileWriter.Writev_posix valid pending os_writev).1 ≠ Result.ok →
      (FileWriter.Writev_posix valid pending os_writev).2.1 = pending) ∧
    (FileWriter.Writev_win32 true pending os_write).2.1 = [] := by
  unfold FileWriter.Writev_posix FileWriter.Writev_win32
  by_cases hv : valid = false
  · simp [hv]
  · rcases os_writev with _ | n
    · simp [hv]
    · by_cases hn : n = pending.sum
      · simp [hv, hn]
      · simp [hv, hn]

/-- Witness for C1 (amended): a successful flush of one 4-byte buffer
empties the POSIX queue, a failed POSIX flush keeps its two buffers, and a
failed WIN32 flush still empties the queue. -/
theorem FileWriter.Writev_pending_amended_witness :
    (FileWriter.Writev_posix true [4] (some 4)).2.1 = [] ∧
      (FileWriter.Writev_posix true [5, 3] none).2.1 = [5, 3] ∧
      (FileWriter.Writev_win32 true [5, 3] (fun _ => none)).2.1 = [] :=
  ⟨(FileWriter.Writev_pending_amended true [4] (some 4) (fun _ => some 4)).1 (by decide),
    (FileWriter.Writev_pending_amended true [5, 3] none (fun _ => none)).2.1 (by decide),
    (FileWriter.Writev_pending_amended true [5, 3] (some 8) (fun _ => none)).2.2⟩

/-! ### C8: short writes are never success -/

/-- C8.  If the OS write call reports a byte count different from the
requested length, `FileWriter::Write` returns `WriteFail` on both the POSIX
and the WIN32 implementation: a short write is never reported as
success. -/
theorem FileWriter.Write_short_write (buf_len n : Nat) (h : n ≠ buf_len) :
    (FileWriter.Write_posix true buf_len (some n)).1 = Result.writefail ∧
      (FileWriter.Write_win32 true buf_len true n).1 = Result.writefail := by
  unfold FileWriter.Write_posix FileWriter.Write_win32
  simp [h]

/-- Witness for C8 at a 5-byte request which the OS reports as 3 bytes. -/
theorem FileWriter.Write_short_write_witness :
    (FileWriter.Write_posix true 5 (some 3)).1 = Result.writefail ∧
      (FileWriter.Write_win32 true 5 true 3).1 = Result.writefail :=
  FileWriter.Write_short_write 5 3 (by decide)

/-! ### Filesystem trees, directory scanning, recursive deletion -/

/-- A filesystem subtree as observed through `stat`/`DirScanner`, with the
OS outcome of the deletion-related calls attached: for a file the `errno`
of `_unlink` (`none` = success), for a directory the `errno` of `opendir`
and of `_rmdir`. -/
inductive FSNode where
  | file (name : List Char) (unlink_errno : Option Nat)
  | dir (name : List Char) (open_errno : Option Nat) (children : List FSNode)
      (rmdir_errno : Option Nat)

def FSNode.name : FSNode → List Char
  | .file n _ => n
  | .dir n _ _ _ => n

def FSNode.isDir : FSNode → Bool
  | .file _ _ => false
  | .dir _ _ _ _ => true

/-- POSIX errno values (Linux numbering). -/
def EPERM : Nat := 1
def ENOENT : Nat := 2
def EACCES : Nat := 13
def EBUSY : Nat := 16
def ENOTDIR : Nat := 20
def ENFILE : Nat := 23
def EMFILE : Nat := 24
def EROFS : Nat := 30
def ENAMETOOLONG : Nat := 36
def ENOTEMPTY : Nat := 39
def ELOOP : Nat := 40

/-- The errno switch shared (verbatim) by `Kumu::DeleteFile` and by the
`_rmdir` failure handling in `h__DeletePath`: `ENOENT`/`ENOTDIR` map to
`NOTAFILE`, `EROFS`/`EBUSY`/`EACCES`/`EPERM` to `NO_PERM`, everything else
to the generic `FAIL`. -/
def delete_errno_result (e : Nat) : Result :=
  if e = ENOENT ∨ e = ENOTDIR then Result.notafile
  else if e = EROFS ∨ e = EBUSY ∨ e = EACCES ∨ e = EPERM then Result.no_perm
  else Result.fail

/-- `Kumu::DeleteFile`: `_unlink` succeeding yields `RESULT_OK`, otherwise
the errno is mapped by the switch above. -/
def DeleteFile (os_unlink : Option Nat) : Result :=
  match os_unlink with
  | none => Result.ok
  | some e => delete_errno_result e

/-- `Kumu::DirScanner::Open`'s result: success when `opendir` succeeds,
otherwise its errno switch (`ENOENT`/`ENOTDIR` → `NOTAFILE`, `EACCES` →
`NO_PERM`, `ELOOP`/`ENAMETOOLONG` → `PARAM`, `EMFILE`/`ENFILE` → `STATE`,
default `FAIL`). -/
def DirScanner.open_result (os_opendir : Option Nat) : Result :=
  match os_opendir with
  | none => Result.ok
  | some e =>
    if e = ENOENT ∨ e = ENOTDIR then Result.notafile
    else if e = EACCES then Result.no_perm
    else if e = ELOOP ∨ e = ENAMETOOLONG then Result.param
    else if e = EMFILE ∨ e = ENFILE then Result.state
    else Result.fail

/-- One OS mutation/inspection call issued during recursive deletion; the
trace of these makes the traversal order observable. -/
inductive OsOp where
  | opendir (p : List Char)
  | unlink (p : List Char)
  | rmdir (p : List Char)
  deriving DecidableEq

mutual

/-- `Kumu::h__DeletePath`: an empty pathname is the `RESULT_NULL_STR`
parameter error; a non-directory is handed to `DeleteFile`; a directory is
scanned (`DirScanner::Open`), its entries other than `"."`/`".."` deleted
recursively while the running result is a success, and `_rmdir` is then
invoked unconditionally, overwriting the running result with its own
mapped errno when it fails.  Returns the result and the trace of OS
calls. -/
def h__DeletePath (pathname : List Char) : FSNode → Result × List OsOp
  | FSNode.file _ os_unlink =>
    if pathname = [] then (Result.null_str, [])
    else (DeleteFile os_unlink, [OsOp.unlink pathname])
  | FSNode.dir _ os_opendir children os_rmdir =>
    if pathname = [] then (Result.null_str, [])
    else
      ((match os_rmdir with
        | none =>
          (delete_children pathname children (DirScanner.open_result os_opendir)).1
        | some e => delete_errno_result e),
        OsOp.opendir pathname ::
          (delete_children pathname children (DirScanner.open_result os_opendir)).2 ++
          [OsOp.rmdir pathname])

/-- The `while ( KM_SUCCESS(result) && KM_SUCCESS(TestDir.GetNext(...)) )`
loop of `h__DeletePath`: iteration stops as soon as the running result is
a failure, `"."` and `".."` are skipped, and every other entry is deleted
recursively at `pathname + "/" + name`. -/
def delete_children (pathname : List Char) :
    List FSNode → Result → Result × List OsOp
  | [], result => (result, [])
  | c :: rest, result =>
    if KM_SUCCESS result = false then (result, [])
    else if c.name = dot ∨ c.name = dotdot then delete_children pathname rest result
    else
      ((delete_children pathname rest (h__DeletePath (pathname ++ '/' :: c.name) c).1).1,
        (h__DeletePath (pathname ++ '/' :: c.name) c).2 ++
          (delete_children pathname rest (h__DeletePath (pathname ++ '/' :: c.name) c).1).2)

end

/-- `Kumu::DeletePath`: the caller-supplied pathname is absolutized (with
the process working directory `cwd`) and canonicalized — with the platform
default separator `'/'` — before `h__DeletePath` runs on it. -/
def DeletePath (cwd pathname : List Char) (root : FSNode) : Result × List OsOp :=
  h__DeletePath (PathMakeCanonical '/' (PathMakeAbsolute '/' cwd pathname)) root

/-- The `while ( KM_SUCCESS(Dir.GetNext(name_buf)) )` loop of
`Kumu::FindInPath`: hidden entries (leading `'.'`) are skipped; a
subdirectory entry is recursed into by the `FindInPath` call on
`SearchDir + separator + name` — inlined here as "open the subdirectory
and scan its children", see `find_loop_cons_dir` — with no `one_shot`
check afterwards; a matching non-directory entry is appended to the found
list, breaking the loop only when `one_shot` is set. -/
def find_loop (pattern : List Char → Bool) (sep : Char) (search_dir : List Char) :
    List FSNode → List (List Char) → Bool → List (List Char)
  | [], found, _ => found
  | c :: rest, found, one_shot =>
    if c.name.head? = some '.' then
      find_loop pattern sep search_dir rest found one_shot
    else
      match c with
      | FSNode.dir cname os_opendir children _ =>
        find_loop pattern sep search_dir rest
          (if KM_SUCCESS (DirScanner.open_result os_opendir) = false then found
            else find_loop pattern sep (search_dir ++ sep :: cname) children found one_shot)
          one_shot
      | FSNode.file cname _ =>
        if pattern cname = true then
          if one_shot then found ++ [search_dir ++ sep :: cname]
          else find_loop pattern sep search_dir rest
            (found ++ [search_dir ++ sep :: cname]) one_shot
        else find_loop pattern sep search_dir rest found one_shot

/-- `Kumu::FindInPath`: open the search directory (a failing
`DirScanner::Open` — e.g. on a non-directory — leaves the found list
untouched) and run the scan loop on its entries. -/
def FindInPath (pattern : List Char → Bool) (sep : Char) (search_dir : List Char) :
    FSNode → List (List Char) → Bool → List (List Char)
  | FSNode.file _ _, found, _ => found
  | FSNode.dir _ os_opendir children _, found, one_shot =>
    if KM_SUCCESS (DirScanner.open_result os_opendir) = false then found
    else find_loop pattern sep search_dir children found one_shot

/-- The inlined subdirectory step of `find_loop` is exactly the source's
recursive `FindInPath` call on the subdirectory. -/
theorem find_loop_cons_dir (pattern : List Char → Bool) (sep : Char)
    (search_dir cname : List Char) (os_opendir os_rmdir : Option Nat)
    (children rest : List FSNode) (found : List (List Char)) (one_shot : Bool)
    (hname : ¬ cname.head? = some '.') :
    find_loop pattern sep search_dir
        (FSNode.dir cname os_opendir children os_rmdir :: rest) found one_shot =
      find_loop pattern sep search_dir rest
        (FindInPath pattern sep (search_dir ++ sep :: cname)
          (FSNode.dir cname os_opendir children os_rmdir) found one_shot)
        one_shot := by
  rw [find_loop, FindInPath]
  rw [if_neg (by simpa [FSNode.name] using hname)]

theorem KM_SUCCESS_eq_false_iff (r : Result) :
    KM_SUCCESS r = false ↔ r ≠ Result.ok := by
  cases r <;> simp [KM_SUCCESS]

/-- Once the running result is a failure, the deletion loop touches no
further sibling: it returns at once with an empty trace. -/
theorem delete_children_failure (path : List Char) (cs : List FSNode) (r : Result)
    (h : r ≠ Result.ok) :
    delete_children path cs r = (r, []) := by
  cases cs with
  | nil => simp [delete_children]
  | cons c rest =>
    have hf : KM_SUCCESS r = false := (KM_SUCCESS_eq_false_iff r).mpr h
    simp [delete_children, hf]

/-- Splitting the children at the first failing entry: the loop deletes
the successful prefix, the failing entry, and nothing after it, and its
result is the failing entry's result. -/
theorem delete_children_first_failure (path : List Char)
    (pre post : List FSNode) (c : FSNode)
    (hpre : ∀ x ∈ pre, x.name ≠ dot ∧ x.name ≠ dotdot ∧
      (h__DeletePath (path ++ '/' :: x.name) x).1 = Result.ok)
    (hcname : c.name ≠ dot ∧ c.name ≠ dotdot)
    (hcfail : (h__DeletePath (path ++ '/' :: c.name) c).1 ≠ Result.ok) :
    delete_children path (pre ++ c :: post) Result.ok =
      ((h__DeletePath (path ++ '/' :: c.name) c).1,
        (pre.flatMap fun x => (h__DeletePath (path ++ '/' :: x.name) x).2) ++
          (h__DeletePath (path ++ '/' :: c.name) c).2) := by
  have hA : ¬ (KM_SUCCESS Result.ok = false) := by simp [KM_SUCCESS]
  induction pre with
  | nil =>
    have hB : ¬ (c.name = dot ∨ c.name = dotdot) := by
      rintro (h | h)
      exacts [hcname.1 h, hcname.2 h]
    rw [List.nil_append, delete_children, if_neg hA, if_neg hB,
      delete_children_failure path post _ hcfail]
    simp
  | cons x pre ih =>
    have hx := hpre x (List.mem_cons_self x pre)
    have hB : ¬ (x.name = dot ∨ x.name = dotdot) := by
      rintro (h | h)
      exacts [hx.1 h, hx.2.1 h]
    rw [List.cons_append, delete_children, if_neg hA, if_neg hB, hx.2.2,
      ih (fun y hy => hpre y (List.mem_cons_of_mem x hy))]
    simp

/-- C2 (amended).  When deleting a directory whose scan succeeds and whose
children are a successfully-deleted prefix followed by a failing entry,
`h__DeletePath` stops the traversal at the failing entry — the trace shows
the prefix, the failing entry, and then only the unconditional `_rmdir` of
the directory itself — and its outcome is the failing child's result when
that `_rmdir` succeeds, but the `_rmdir` errno mapping when it fails. -/
theorem h__DeletePath_first_failure (path dname : List Char) (hpath : path ≠ [])
    (pre post : List FSNode) (c : FSNode) (os_rmdir : Option Nat)
    (hpre : ∀ x ∈ pre, x.name ≠ dot ∧ x.name ≠ dotdot ∧
      (h__DeletePath (path ++ '/' :: x.name) x).1 = Result.ok)
    (hcname : c.name ≠ dot ∧ c.name ≠ dotdot)
    (hcfail : (h__DeletePath (path ++ '/' :: c.name) c).1 ≠ Result.ok) :
    (h__DeletePath path (FSNode.dir dname none (pre ++ c :: post) os_rmdir)).2 =
      OsOp.opendir path ::
        ((pre.flatMap fun x => (h__DeletePath (path ++ '/' :: x.name) x).2) ++
          (h__DeletePath (path ++ '/' :: c.name) c).2) ++ [OsOp.rmdir path] ∧
    (h__DeletePath path (FSNode.dir dname none (pre ++ c :: post) os_rmdir)).1 =
      (match os_rmdir with
       | none => (h__DeletePath (path ++ '/' :: c.name) c).1
       | some e => delete_errno_result e) := by
  simp only [h__DeletePath, if_neg hpath]
  have hopen : DirScanner.open_result none = Result.ok := rfl
  rw [hopen, delete_children_first_failure path pre post c hpre hcname hcfail]
  cases os_rmdir <;> simp

/-- Witness for C2 (amended) on a directory `/d` holding a deletable file
`p`, then a file `a` whose `_unlink` fails with `EPERM`, then a file `b`:
the trace stops before `b`, and the failing `_rmdir` (`ENOTEMPTY`) turns
the outcome into the generic `Fail` instead of the child's `NoPerm`. -/
theorem h__DeletePath_first_failure_witness :
    (h__DeletePath ['/', 'd']
      (FSNode.dir ['d'] none
        [FSNode.file ['p'] none, FSNode.file ['a'] (some EPERM), FSNode.file ['b'] none]
        (some ENOTEMPTY))).2 =
      OsOp.opendir ['/', 'd'] ::
        ([OsOp.unlink ['/', 'd', '/', 'p']] ++ [OsOp.unlink ['/', 'd', '/', 'a']]) ++
        [OsOp.rmdir ['/', 'd']] ∧
    (h__DeletePath ['/', 'd']
      (FSNode.dir ['d'] none
        [FSNode.file ['p'] none, FSNode.file ['a'] (some EPERM), FSNode.file ['b'] none]
        (some ENOTEMPTY))).1 = delete_errno_result ENOTEMPTY := by
  have h := h__DeletePath_first_failure ['/', 'd'] ['d'] (by decide)
    [FSNode.file ['p'] none] [FSNode.file ['b'] none]
    (FSNode.file ['a'] (some EPERM)) (some ENOTEMPTY)
    (by
      intro x hx
      rw [List.mem_singleton] at hx
      subst hx
      refine ⟨by decide, by decide, ?_⟩
      simp [h__DeletePath, DeleteFile, FSNode.name])
    (by constructor <;> decide)
    (by simp [h__DeletePath, DeleteFile, delete_errno_result, FSNode.name,
      EPERM, ENOENT, ENOTDIR, EROFS, EBUSY, EACCES])
  refine ⟨?_, ?_⟩
  · have h1 := h.1
    simpa [h__DeletePath, DeleteFile, FSNode.name] using h1
  · exact h.2

/-- C2 counterexample.  On the tree `/d` containing a file `a` whose
`_unlink` fails with `EPERM` (child result `NoPerm`) and then a file `b`,
with `_rmdir` failing `ENOTEMPTY`: the sibling traversal does stop — `b`
is never touched — but `DeletePath` returns the generic `Fail` from the
`_rmdir` errno mapping, not the first failing child's `NoPerm`. -/
theorem DeletePath_first_failure_counterexample :
    (DeletePath ['/', 'x'] ['/', 'd']
      (FSNode.dir ['d'] none
        [FSNode.file ['a'] (some EPERM), FSNode.file ['b'] none]
        (some ENOTEMPTY))).1 = Result.fail ∧
    (h__DeletePath ['/', 'd', '/', 'a'] (FSNode.file ['a'] (some EPERM))).1 =
      Result.no_perm ∧
    Result.fail ≠ Result.no_perm ∧
    (DeletePath ['/', 'x'] ['/', 'd']
      (FSNode.dir ['d'] none
        [FSNode.file ['a'] (some EPERM), FSNode.file ['b'] none]
        (some ENOTEMPTY))).2 =
      [OsOp.opendir ['/', 'd'], OsOp.unlink ['/', 'd', '/', 'a'], OsOp.rmdir ['/', 'd']] := by
  refine ⟨?_, ?_, by decide, ?_⟩ <;>
    simp [DeletePath, PathMakeAbsolute, PathMakeCanonical, PathIsAbsolute,
      PathToComponents, km_token_split, make_canonical_list, make_canonical_step,
      ComponentsToAbsolutePath, h__DeletePath, delete_children, DeleteFile,
      delete_errno_result, DirScanner.open_result, KM_SUCCESS, FSNode.name,
      dot, dotdot, EPERM, ENOENT, ENOTDIR, EROFS, EBUSY, EACCES, ENOTEMPTY]

/-! ### C3: `one_shot` search -/

/-- C3 counterexample.  Searching `/r` — whose entries are a subdirectory
`d` containing a matching file `m`, followed by a matching file `n` — with
an always-true pattern and `one_shot == true` starting from an empty found
list returns two paths: the match inside the recursively visited
subdirectory does not stop the parent directory's traversal. -/
theorem FindInPath_one_shot_counterexample :
    FindInPath (fun _ => true) '/' ['/', 'r']
      (FSNode.dir ['r'] none
        [FSNode.dir ['d'] none [FSNode.file ['m'] none] none,
          FSNode.file ['n'] none] none)
      [] true =
      [['/', 'r', '/', 'd', '/', 'm'], ['/', 'r', '/', 'n']] ∧
    (FindInPath (fun _ => true) '/' ['/', 'r']
      (FSNode.dir ['r'] none
        [FSNode.dir ['d'] none [FSNode.file ['m'] none] none,
          FSNode.file ['n'] none] none)
      [] true).length = 2 := by
  constructor <;>
    simp [FindInPath, find_loop, DirScanner.open_result, KM_SUCCESS,
      FSNode.name, FSNode.isDir]

/-- The scan loop with `one_shot` adds at most one path when none of the
entries is a subdirectory. -/
theorem find_loop_one_shot_flat (pattern : List Char → Bool) (sep : Char)
    (search_dir : List Char) (cs : List FSNode) (found : List (List Char))
    (hflat : ∀ c ∈ cs, c.isDir = false) :
    (find_loop pattern sep search_dir cs found true).length ≤ found.length + 1 := by
  induction cs generalizing found with
  | nil =>
    rw [find_loop]
    omega
  | cons c rest ih =>
    have hrest : ∀ y ∈ rest, y.isDir = false :=
      fun y hy => hflat y (List.mem_cons_of_mem c hy)
    cases c with
    | dir cname os_opendir children os_rmdir =>
      have hc := hflat _ (List.mem_cons_self _ rest)
      simp [FSNode.isDir] at hc
    | file cname os_unlink =>
      rw [find_loop]
      by_cases h1 : (FSNode.file cname os_unlink).name.head? = some '.'
      · rw [if_pos h1]
        exact ih found hrest
      · rw [if_neg h1]
        by_cases h2 : pattern cname = true
        · rw [if_pos h2, if_pos rfl]
          simp
        · rw [if_neg h2]
          exact ih found hrest

/-- C3 (amended).  With `one_shot == true`, a `FindInPath` whose search
directory contains no subdirectories appends at most one path to the found
list; but when the first match occurs inside a recursively visited
subdirectory the parent directory's sibling traversal continues, so more
than one path may be appended (see the counterexample). -/
theorem FindInPath_one_shot_amended (pattern : List Char → Bool) (sep : Char)
    (search_dir dname : List Char) (os_opendir os_rmdir : Option Nat)
    (cs : List FSNode) (found : List (List Char))
    (hflat : ∀ c ∈ cs, c.isDir = false) :
    (FindInPath pattern sep search_dir (FSNode.dir dname os_opendir cs os_rmdir)
      found true).length ≤ found.length + 1 := by
  rw [FindInPath]
  by_cases hopen : KM_SUCCESS (DirScanner.open_result os_opendir) = false
  · rw [if_pos hopen]
    omega
  · rw [if_neg hopen]
    exact find_loop_one_shot_flat pattern sep search_dir cs found hflat

/-- Witness for C3 (amended): a flat directory with two matching files and
`one_shot` yields exactly one found path. -/
theorem FindInPath_one_shot_amended_witness :
    (FindInPath (fun _ => true) '/' ['/', 'r']
      (FSNode.dir ['r'] none [FSNode.file ['n'] none, FSNode.file ['m'] none] none)
      [] true).length ≤ 0 + 1 := by
  have h := FindInPath_one_shot_amended (fun _ => true) '/' ['/', 'r'] ['r']
    none none [FSNode.file ['n'] none, FSNode.file ['m'] none] []
    (by
      intro c hc
      rcases List.mem_cons.mp hc with h1 | h1
      · rw [h1]
        rfl
      · rw [List.mem_singleton.mp h1]
        rfl)
  simpa using h

/-! ### C9: `DeletePath` on the empty string -/

/-- C9.  `DeletePath("")` absolutizes the empty pathname to the lone
separator: the string handed to `h__DeletePath` is `"/"`, so instead of
the `RESULT_NULL_STR` parameter error that `h__DeletePath` produces for
the empty string, the recursive deletion is attempted on the root
directory (its first OS call is `opendir("/")`). -/
theorem DeletePath_empty_input (cwd : List Char) :
    PathMakeCanonical '/' (PathMakeAbsolute '/' cwd []) = ['/'] ∧
    (∀ node : FSNode, h__DeletePath [] node = (Result.null_str, [])) ∧
    (∀ (dname : List Char) (os_opendir : Option Nat) (children : List FSNode)
        (os_rmdir : Option Nat),
      (DeletePath cwd [] (FSNode.dir dname os_opendir children os_rmdir)).2.head? =
        some (OsOp.opendir ['/'])) := by
  have harg : PathMakeCanonical '/' (PathMakeAbsolute '/' cwd []) = ['/'] := by
    simp [PathMakeAbsolute, PathMakeCanonical, PathIsAbsolute, PathToComponents,
      km_token_split, make_canonical_list, ComponentsToAbsolutePath]
  refine ⟨harg, ?_, ?_⟩
  · intro node
    cases node <;> simp [h__DeletePath]
  · intro dname os_opendir children os_rmdir
    rw [DeletePath, harg]
    simp [h__DeletePath]

/-! ### C4: glob matching

`Kumu::PathMatchGlob` translates the glob to a regex string and compiles
it with `regcomp(&m_regex, regex.c_str(), REG_NOSUB)` — i.e. as a POSIX
*basic* regular expression (`REG_EXTENDED` appears only in a comment) —
and matches with `regexec`, which searches for the pattern anywhere in the
candidate.  The C library's regex engine is external to this repository;
it is modelled below by POSIX BRE semantics restricted to the fragment the
translation emits (`none` marks a pattern outside the modelled fragment).
In a BRE, `?` is an ordinary character, not a quantifier. -/

/-- The glob-to-regex loop of `Kumu::PathMatchGlob::PathMatchGlob`:
`'.'` becomes `"\."`, `'*'` becomes `".*"`, `'?'` becomes `".?"`, every
other character is copied, and `'$'` is appended. -/
def glob_to_regex (glob : List Char) : List Char :=
  (glob.flatMap fun c =>
    if c = '.' then ['\\', '.']
    else if c = '*' then ['.', '*']
    else if c = '?' then ['.', '?']
    else [c]) ++ ['$']

/-- A compiled basic-regex token: an ordinary character, the `.` wildcard,
or a starred atom. -/
inductive BreTok where
  | lit (c : Char)
  | anyc
  | star (a : BreTok)
  deriving DecidableEq

/-- Parse a POSIX basic regular expression into tokens plus an
end-anchored flag.  Only the fragment reachable from the glob translation
is modelled: `\.`, `.`, a trailing unescaped `$` (an anchor only at the
very end of a BRE, ordinary elsewhere), `*` applied to the preceding
one-character atom, and ordinary characters — in a BRE, `?` among them.
Bracket expressions, other escapes, and a leading `*` return `none`. -/
def bre_parse : List Char → Option (List BreTok × Bool)
  | [] => some ([], false)
  | ['$'] => some ([], true)
  | '\\' :: '.' :: '*' :: r =>
    (bre_parse r).map fun p => (BreTok.star (BreTok.lit '.') :: p.1, p.2)
  | '\\' :: '.' :: r =>
    (bre_parse r).map fun p => (BreTok.lit '.' :: p.1, p.2)
  | '\\' :: _ => none
  | c :: '*' :: r =>
    if c = '[' ∨ c = '*' ∨ c = '\\' then none
    else
      (bre_parse r).map fun p =>
        (BreTok.star (if c = '.' then BreTok.anyc else BreTok.lit c) :: p.1, p.2)
  | c :: r =>
    if c = '[' ∨ c = '*' ∨ c = '\\' then none
    else
      (bre_parse r).map fun p =>
        ((if c = '.' then BreTok.anyc else BreTok.lit c) :: p.1, p.2)

/-- Whether a single-character atom matches one character. -/
def bre_atom_match : BreTok → Char → Bool
  | BreTok.lit c, x => x = c
  | BreTok.anyc, _ => true
  | BreTok.star _, _ => false

/-- Match a token list against a prefix of `s`; with the anchor flag the
match must consume `s` entirely, without it any prefix (including the
empty one) suffices — `regexec` reports the leftmost match wherever it
ends. -/
def bre_match_here : List BreTok → Bool → List Char → Bool
  | [], false, _ => true
  | [], true, s => s.isEmpty
  | BreTok.lit c :: ts, anchor, s =>
    match s with
    | [] => false
    | x :: s2 => if x = c then bre_match_here ts anchor s2 else false
  | BreTok.anyc :: ts, anchor, s =>
    match s with
    | [] => false
    | _ :: s2 => bre_match_here ts anchor s2
  | BreTok.star a :: ts, anchor, s =>
    bre_match_here ts anchor s ||
      (match s with
        | [] => false
        | x :: s2 => bre_atom_match a x && bre_match_here (BreTok.star a :: ts) anchor s2)
  termination_by ts _ s => (s.length, ts.length)

/-- `regexec` semantics: try the pattern at every start position. -/
def bre_search (ts : List BreTok) (anchor : Bool) : List Char → Bool
  | [] => bre_match_here ts anchor []
  | x :: s2 => bre_match_here ts anchor (x :: s2) || bre_search ts anchor s2

/-- Compile a basic regular expression (a leading `^` anchor is outside
the modelled fragment; the glob translation never emits one). -/
def bre_compile (rs : List Char) : Option (List BreTok × Bool) :=
  if rs.head? = some '^' then none else bre_parse rs

/-- `Kumu::PathMatchGlob::Match`: compile the translated glob and search
the candidate; `none` when the pattern falls outside the modelled BRE
fragment. -/
def PathMatchGlob_Match (glob s : List Char) : Option Bool :=
  (bre_compile (glob_to_regex glob)).map fun p => bre_search p.1 p.2 s

/-- C4 (code bug).  The glob `"a?"` is translated to the regex `"a.?$"`
and compiled as a POSIX *basic* RE, in which `?` is an ordinary character:
the candidate `"ab"` does not match (though `?` read as "exactly one
arbitrary character" demands it), `"a"` does not match, and `"ab?"` — a
name with a literal question mark — does.  `?` is not treated as "exactly
one arbitrary character". -/
theorem PathMatchGlob_question_mark :
    glob_to_regex ['a', '?'] = ['a', '.', '?', '$'] ∧
    PathMatchGlob_Match ['a', '?'] ['a', 'b'] = some false ∧
    PathMatchGlob_Match ['a', '?'] ['a'] = some false ∧
    PathMatchGlob_Match ['a', '?'] ['a', 'b', '?'] = some true := by
  refine ⟨rfl, ?_, ?_, ?_⟩ <;>
    simp [PathMatchGlob_Match, bre_compile, bre_parse, glob_to_regex,
      bre_search, bre_match_here, bre_atom_match]

end Kumu
